import Mathlib

/-!
Shallow embedding of the stencil shape-inference pass
(`lib/Dialect/Stencil/ShapeInferencePass.cpp` of open-earth-compiler).

The IR fragment relevant to the pass is modelled explicitly:
an operation carries its identity, its operand value ids, its declared
operand types, its result values with their (possibly dynamic) shapes,
the `ShapedOp` data (bounds `lb`/`ub` and rank), the interface flags
(`isShaped`, `isShapeInference`, `isApply`), and — for apply operations —
the list of offset accesses of its body (in walk order) together with the
optional unroll factor of the body terminator.  Values are identified by
natural numbers; uses of a value are the operand occurrences of that value
in the function's operations.
-/

/-- An index: one signed integer per spatial dimension (`stencil::Index`). -/
abbrev Index := List Int

/-- Modelled from the spec: `applyFunElementWise` (from `StencilUtils.h`,
not part of src/) applies a binary function componentwise
("componentwise addition", "componentwise min/max"); like `llvm::zip`
it stops at the shorter of the two sequences. -/
def applyFunElementWise (x y : Index) (f : Int → Int → Int) : Index :=
  List.zipWith f x y

/-- The positive and negative extents of an operand (`AccessExtents::Extent`). -/
structure Extent where
  negative : Index
  positive : Index
deriving DecidableEq

/-- An access op inside an apply body: the body-argument position read and
the constant offset (`stencil::AccessOp`). -/
structure AccessRec where
  arg : Nat
  offset : Index
deriving DecidableEq

/-- A result of an operation: its value id and its type's shape
(`none` models a dynamic shape). -/
structure ResultRec where
  valueId : Nat
  shape : Option Index
deriving DecidableEq

/-- An operation of the function's entry block. -/
structure Op where
  opId : Nat
  operands : List Nat
  operandTypes : List (Option Index)
  results : List ResultRec
  isShaped : Bool
  rank : Nat
  lb : Index
  ub : Index
  isShapeInference : Bool
  isApply : Bool
  accesses : List AccessRec
  unroll : Option Index
deriving DecidableEq

/-- A function: the stencil-program marker and the entry-block operations in
program order. -/
structure Func where
  stencilProgram : Bool
  ops : List Op
deriving DecidableEq

/-- The body argument accessed by an access op resolves to the operand at the
same position (the `argToOperand` map of `AccessExtents::AccessExtents`).
Accesses of a well-formed apply are always in range. -/
def resolve (a : Op) (acc : AccessRec) : Option Nat :=
  a.operands[acc.arg]?

/-- Record one access: first access to a value seeds both components with the
offset, a later access widens them by componentwise min/max
(`AccessExtents::AccessExtents`, access walk). -/
def recordAccess (m : Nat → Option Extent) (v : Nat) (off : Index) :
    Nat → Option Extent :=
  fun w =>
    if w = v then
      match m v with
      | none => some { negative := off, positive := off }
      | some e =>
          some { negative := applyFunElementWise e.negative off (fun p q => min p q),
                 positive := applyFunElementWise e.positive off (fun p q => max p q) }
    else m w

/-- One step of the access walk of an apply op. -/
def accessStep (a : Op) (m : Nat → Option Extent) (acc : AccessRec) :
    Nat → Option Extent :=
  match resolve a acc with
  | some v => recordAccess m v acc.offset
  | none => m

/-- The per-operand extent map of one apply op after walking its accesses. -/
def processAccesses (a : Op) : Nat → Option Extent :=
  a.accesses.foldl (accessStep a) (fun _ => none)

/-- Subtract `unroll - 1` from a positive extent
(the lambda of the unroll loop in `AccessExtents::AccessExtents`). -/
def unrollPositive (u : Index) (e : Extent) : Extent :=
  { e with positive := applyFunElementWise e.positive u (fun p q => p - q + 1) }

/-- One iteration of the unroll adjustment loop for the operand value `v`;
like `DenseMap::operator[]` a missing entry is default-constructed (empty
extents) before its positive component is adjusted. -/
def unrollStep (u : Index) (m : Nat → Option Extent) (v : Nat) :
    Nat → Option Extent :=
  fun w =>
    if w = v then
      some (unrollPositive u ((m v).getD { negative := [], positive := [] }))
    else m w

/-- The unroll adjustment loop: one iteration per operand position. -/
def adjustUnroll (m : Nat → Option Extent) (operands : List Nat) (u : Index) :
    Nat → Option Extent :=
  operands.foldl (unrollStep u) m

/-- The extent map of one apply op: the access walk followed by the unroll
adjustment when the body terminator declares an unroll factor. -/
def processApply (a : Op) : Nat → Option Extent :=
  match a.unroll with
  | none => processAccesses a
  | some u => adjustUnroll (processAccesses a) a.operands u

/-- The analysis result: (operation id, value id) → recorded extent. -/
structure AccessExtents where
  extents : Nat → Nat → Option Extent

/-- Model of `AccessExtents::lookupExtent`: absent entries are reported as `none`,
not as an error. -/
def lookupExtent (ae : AccessExtents) (opid v : Nat) : Option Extent :=
  ae.extents opid v

/-- Locate the apply op of the function with the given id. -/
def findApply (f : Func) (opid : Nat) : Option Op :=
  f.ops.find? (fun o => o.isApply && o.opId == opid)

/-- Build the analysis by walking every apply op of the function
(`AccessExtents::AccessExtents`); operation ids are assumed unique. -/
def buildExtents (f : Func) : AccessExtents :=
  { extents := fun opid v =>
      match findApply f opid with
      | some a => processApply a v
      | none => none }

/-- The fatal errors of the pass, each located at an operation. -/
inductive InferError where
  | rankMismatch (opId : Nat)
  | emptyShape (opId : Nat)
  | nonPositiveShape (opId : Nat)
deriving DecidableEq

/-- The bounds of a use's owner, widened by the recorded extent when one
exists (the lookup-and-widen prefix of `extendBounds`). -/
def widenedBounds (ae : AccessExtents) (owner : Op) (v : Nat) : Index × Index :=
  match lookupExtent ae owner.opId v with
  | some e =>
      (applyFunElementWise owner.lb e.negative (fun p q => p + q),
       applyFunElementWise owner.ub e.positive (fun p q => p + q))
  | none => (owner.lb, owner.ub)

/-- Model of `extendBounds`: fold one use into the accumulated bounds.  Non-shaped
owners contribute nothing; the first contribution seeds the accumulator;
later ones must match the owner's rank and are merged by componentwise
min/max. -/
def extendBounds (owner : Op) (v : Nat) (ae : AccessExtents)
    (lower upper : Index) : Except InferError (Index × Index) :=
  if owner.isShaped then
    let wb := widenedBounds ae owner v
    if lower = [] ∧ upper = [] then
      Except.ok (wb.1, wb.2)
    else if lower.length ≠ owner.rank ∨ upper.length ≠ owner.rank then
      Except.error (InferError.rankMismatch owner.opId)
    else
      Except.ok (applyFunElementWise lower wb.1 (fun p q => min p q),
                 applyFunElementWise upper wb.2 (fun p q => max p q))
  else
    Except.ok (lower, upper)

/-- The uses of a value: one entry per operand occurrence, in program order. -/
def usesOf (f : Func) (v : Nat) : List Op :=
  f.ops.flatMap (fun o => List.replicate (o.operands.count v) o)

/-- Fold `extendBounds` over a list of uses of value `v`. -/
def foldUses (ae : AccessExtents) (v : Nat) :
    List Op → Index × Index → Except InferError (Index × Index)
  | [], p => Except.ok p
  | owner :: rest, p =>
    match extendBounds owner v ae p.1 p.2 with
    | Except.error e => Except.error e
    | Except.ok q => foldUses ae v rest q

/-- Fold the uses of every result of the operation
(the nested loops of `inferShapes`). -/
def foldResults (f : Func) (ae : AccessExtents) :
    List ResultRec → Index × Index → Except InferError (Index × Index)
  | [], p => Except.ok p
  | r :: rest, p =>
    match foldUses ae r.valueId (usesOf f r.valueId) p with
    | Except.error e => Except.error e
    | Except.ok q => foldResults f ae rest q

/-- The accumulated bounds of an operation over all uses of its results. -/
def inferBounds (f : Func) (ae : AccessExtents) (op : Op) :
    Except InferError (Index × Index) :=
  foldResults f ae op.results ([], [])

/-- Model of `ShapeInference::setOpShape` plus the result-type rewrite: commit the
bounds and give every result the concrete shape. -/
def setShape (o : Op) (lb ub shape : Index) : Op :=
  { o with lb := lb, ub := ub,
           results := o.results.map (fun r => { r with shape := some shape }) }

/-- Model of `ShapedOp::setOperandType`: update the declared type of the operands
holding value `v`. -/
def setOperandType (o : Op) (v : Nat) (shape : Index) : Op :=
  { o with operandTypes :=
      (List.zipWith (fun w t => if w = v then some shape else t)
        o.operands o.operandTypes) }

/-- Type propagation to one operation: shaped users of a result value get the
new concrete operand type. -/
def propagateStep (shape : Index) (o : Op) (v : Nat) : Op :=
  if o.isShaped && o.operands.contains v then setOperandType o v shape else o

/-- The commit step of `inferShapes` applied to one operation of the block:
the inferred operation itself gets its bounds and result types, and shaped
users of its results get the propagated operand types. -/
def commitOp (op : Op) (lb ub shape : Index) (o : Op) : Op :=
  (op.results.map (fun r => r.valueId)).foldl (propagateStep shape)
    (if o.opId = op.opId then setShape o lb ub shape else o)

/-- Commit the inferred shape of `op` throughout the function. -/
def commit (f : Func) (op : Op) (lb ub shape : Index) : Func :=
  { f with ops := f.ops.map (commitOp op lb ub shape) }

/-- Model of `inferShapes`: fold all uses, validate the shape, then (and only then)
mutate the IR.  The function state is returned together with the optional
fatal error. -/
def inferShapes (f : Func) (ae : AccessExtents) (op : Op) :
    Func × Option InferError :=
  match inferBounds f ae op with
  | Except.error e => (f, some e)
  | Except.ok (lb, ub) =>
    if applyFunElementWise ub lb (fun p q => p - q) = [] then
      (f, some (InferError.emptyShape op.opId))
    else if (applyFunElementWise ub lb (fun p q => p - q)).any (fun s => s < 1) then
      (f, some (InferError.nonPositiveShape op.opId))
    else (commit f op lb ub (applyFunElementWise ub lb (fun p q => p - q)), none)

/-- Find the current state of the operation with the given id. -/
def getOp (f : Func) (id : Nat) : Option Op :=
  f.ops.find? (fun o => o.opId == id)

/-- The reverse iteration of `ShapeInferencePass::runOnFunction` over the
entry block: shape-inference ops are processed against the current IR
state; a fatal error signals failure and stops immediately. -/
def runOps (ae : AccessExtents) : Func → List Nat → Func × Option InferError
  | f, [] => (f, none)
  | f, id :: rest =>
    match getOp f id with
    | none => runOps ae f rest
    | some op =>
      if op.isShapeInference then
        match inferShapes f ae op with
        | (f1, some e) => (f1, some e)
        | (f1, none) => runOps ae f1 rest
      else runOps ae f rest

/-- Model of `ShapeInferencePass::runOnFunction`: skip functions that are not stencil
programs; otherwise build the extent analysis once and walk the entry
block in reverse order. -/
def runOnFunction (f : Func) : Func × Option InferError :=
  if f.stencilProgram then
    runOps (buildExtents f) f ((f.ops.map (fun o => o.opId)).reverse)
  else (f, none)

/-- The offsets of the accesses of apply `a` that resolve to value `v`, in
walk order. -/
def offsetsTo (a : Op) (v : Nat) : List Index :=
  a.accesses.filterMap
    (fun acc => if resolve a acc = some v then some acc.offset else none)

/-- One step of the access-offset fold seen through a fixed (operation,
operand) key: the first offset seeds, later offsets widen. -/
def stepOff (acc : Option Extent) (o : Index) : Option Extent :=
  match acc with
  | none => some { negative := o, positive := o }
  | some e =>
      some { negative := applyFunElementWise e.negative o (fun p q => min p q),
             positive := applyFunElementWise e.positive o (fun p q => max p q) }

/-- Widen an extent by one further offset (the seeded branch of `stepOff`). -/
def extE (e : Extent) (o : Index) : Extent :=
  { negative := applyFunElementWise e.negative o (fun p q => min p q),
    positive := applyFunElementWise e.positive o (fun p q => max p q) }

/-- An extent analysis with no recorded accesses at all. -/
def noExtents : AccessExtents := { extents := fun _ _ => none }

/-- Concrete apply op A of the chain A to B to C: no operands, result
value 1. -/
def opA : Op := ⟨0, [], [], [⟨1, none⟩], true, 1, [], [], true, true, [], none⟩

/-- Concrete apply op B: reads A's result (value 1) at offset -1, produces
value 2. -/
def opB : Op :=
  ⟨1, [1], [none], [⟨2, none⟩], true, 1, [], [], true, true, [⟨0, [-1]⟩], none⟩

/-- Concrete apply op C: reads B's result (value 2) at offset 1, produces
value 3. -/
def opC : Op :=
  ⟨2, [2], [none], [⟨3, none⟩], true, 1, [], [], true, true, [⟨0, [1]⟩], none⟩

/-- Concrete store-like op: consumes value 3 with fixed bounds 0 to 10 and
does not itself participate in shape inference. -/
def opS : Op := ⟨3, [3], [none], [], true, 1, [0], [10], false, false, [], none⟩

/-- The three-operation chain terminated by a store, in program order. -/
def chainF : Func := ⟨true, [opA, opB, opC, opS]⟩

/-- A 2-d apply reading operand value 4 at offsets [-1,0] and [1,0]. -/
def twoAccessApply : Op :=
  ⟨10, [4], [none], [⟨5, none⟩], true, 2, [], [], true, true,
   [⟨0, [-1, 0]⟩, ⟨0, [1, 0]⟩], none⟩

/-- An apply carrying the same value 5 as both of its operands, one access
at offset 3, and unroll factor 2. -/
def dupOperandApply : Op :=
  ⟨11, [5, 5], [none, none], [⟨6, none⟩], true, 1, [], [], true, true,
   [⟨0, [3]⟩], some [2]⟩

/-- An apply with a single operand (value 5), one access at offset 3, and
unroll factor 2. -/
def unrollApply : Op :=
  ⟨12, [5], [none], [⟨6, none⟩], true, 1, [], [], true, true,
   [⟨0, [3]⟩], some [2]⟩

/-- An apply with one operand (value 4) but no accesses, whose terminator
declares an unroll factor. -/
def noAccessApply : Op :=
  ⟨7, [4], [none], [⟨9, none⟩], true, 1, [], [], true, true, [], some [1]⟩

/-- A stencil function holding only `noAccessApply`. -/
def noAccessFunc : Func := ⟨true, [noAccessApply]⟩

/-- A shaped consumer with bounds 0 to 10 and rank 1, using value 1. -/
def shapedUseA : Op :=
  ⟨20, [1], [none], [], true, 1, [0], [10], false, false, [], none⟩

/-- A shaped consumer with bounds 2 to 8 and rank 1, using value 1. -/
def shapedUseB : Op :=
  ⟨21, [1], [none], [], true, 1, [2], [8], false, false, [], none⟩

/-- A producer of value 1 that participates in shape inference. -/
def producerOp : Op :=
  ⟨30, [], [], [⟨1, none⟩], true, 1, [], [], true, true, [], none⟩

/-- A function in which `producerOp` feeds exactly the one use `shapedUseA`. -/
def singleUseFunc : Func := ⟨true, [producerOp, shapedUseA]⟩

/-- An extent analysis recording extent (-1, 1) for value 1 at the consumer
`shapedUseA` (operation id 20). -/
def singleUseExtents : AccessExtents :=
  { extents := fun opid v =>
      if opid = 20 ∧ v = 1 then some { negative := [-1], positive := [1] }
      else none }

/-- A shape-inference op with one result (value 8) that no operation uses. -/
def unusedProducer : Op :=
  ⟨40, [], [], [⟨8, none⟩], true, 1, [], [], true, true, [], none⟩

/-- A stencil function whose only inference op has an unused result, so its
bounds stay empty and shape inference must fail. -/
def unusedFunc : Func := ⟨true, [unusedProducer]⟩

/-- A function not marked as a stencil program. -/
def plainFunc : Func := ⟨false, [opA, opS]⟩

theorem inferShapes_fail_eq (f : Func) (ae : AccessExtents) (op : Op)
    (e : InferError) (h : (inferShapes f ae op).2 = some e) :
    inferShapes f ae op = (f, some e) := by
  unfold inferShapes at h ⊢
  cases hb : inferBounds f ae op with
  | error e2 =>
    rw [hb] at h
    have he : e2 = e := Option.some.inj h
    subst he
    rfl
  | ok p =>
    obtain ⟨lb, ub⟩ := p
    rw [hb] at h
    show (if applyFunElementWise ub lb (fun p q => p - q) = [] then
            (f, some (InferError.emptyShape op.opId))
          else if (applyFunElementWise ub lb (fun p q => p - q)).any
              (fun s => s < 1) then
            (f, some (InferError.nonPositiveShape op.opId))
          else (commit f op lb ub (applyFunElementWise ub lb (fun p q => p - q)),
                none))
        = (f, some e)
    have h2 : (if applyFunElementWise ub lb (fun p q => p - q) = [] then
            (f, some (InferError.emptyShape op.opId))
          else if (applyFunElementWise ub lb (fun p q => p - q)).any
              (fun s => s < 1) then
            (f, some (InferError.nonPositiveShape op.opId))
          else (commit f op lb ub (applyFunElementWise ub lb (fun p q => p - q)),
                none)).2
        = some e := h
    by_cases h1 : applyFunElementWise ub lb (fun p q => p - q) = []
    · rw [if_pos h1] at h2 ⊢
      have he := Option.some.inj h2
      rw [← he]
    · rw [if_neg h1] at h2 ⊢
      by_cases hany :
          (applyFunElementWise ub lb (fun p q => p - q)).any (fun s => s < 1) = true
      · rw [if_pos hany] at h2 ⊢
        have he := Option.some.inj h2
        rw [← he]
      · rw [if_neg hany] at h2
        exact absurd h2 (by simp)

/-- C1: for the three-operation chain A to B to C (C reads B's result at
offset 1, B reads A's result at offset -1, C's result is stored over bounds
0 to 10), a single run of the driver in reverse entry-block order succeeds
and finalizes A's bounds to the store bounds widened by both offsets
composed transitively through B. -/
theorem chain_reverse_pass_transitive :
    (runOnFunction chainF).2 = none
    ∧ ((getOp (runOnFunction chainF).1 2).map fun o => (o.lb, o.ub))
        = some ([0], [10])
    ∧ ((getOp (runOnFunction chainF).1 1).map fun o => (o.lb, o.ub))
        = some ([0 + 1], [10 + 1])
    ∧ ((getOp (runOnFunction chainF).1 0).map fun o => (o.lb, o.ub))
        = some ([0 + 1 + -1], [10 + 1 + -1]) := by
  decide

/-- C9: a function not marked as a stencil program is returned completely
unchanged, with no failure signalled and no analysis consulted. -/
theorem not_stencil_program_noop (f : Func) (h : f.stencilProgram = false) :
    runOnFunction f = (f, none) := by
  simp [runOnFunction, h]

theorem not_stencil_program_noop_witness :
    plainFunc.stencilProgram = false ∧ runOnFunction plainFunc = (plainFunc, none) :=
  ⟨rfl, not_stencil_program_noop plainFunc rfl⟩

/-- C8: a fatal error while inferring one operation stops the reverse walk
at once: the remaining operations are not visited, the failure is signalled,
and the function state at the moment of failure (with all bounds committed
so far) is returned without rollback. -/
theorem error_aborts_pass (ae : AccessExtents) (f : Func) (id : Nat)
    (rest : List Nat) (op : Op) (e : InferError)
    (hop : getOp f id = some op) (hinf : op.isShapeInference = true)
    (herr : (inferShapes f ae op).2 = some e) :
    runOps ae f (id :: rest) = (f, some e) := by
  have hfail := inferShapes_fail_eq f ae op e herr
  simp [runOps, hop, hinf, hfail]

theorem error_aborts_pass_witness :
    getOp unusedFunc 40 = some unusedProducer
    ∧ unusedProducer.isShapeInference = true
    ∧ (inferShapes unusedFunc noExtents unusedProducer).2
        = some (InferError.emptyShape 40)
    ∧ runOps noExtents unusedFunc (40 :: [41, 42])
        = (unusedFunc, some (InferError.emptyShape 40)) :=
  ⟨by decide, by decide, by decide,
   error_aborts_pass noExtents unusedFunc 40 [41, 42] unusedProducer
     (InferError.emptyShape 40) (by decide) (by decide) (by decide)⟩

/-- C10: when inferring shapes for one operation fails, the function state is
returned unchanged; in particular the failing operation keeps its previous
bounds and result types, because every error check precedes the commit. -/
theorem failed_op_unchanged (f : Func) (ae : AccessExtents) (op : Op)
    (e : InferError) (h : (inferShapes f ae op).2 = some e) :
    (inferShapes f ae op).1 = f
    ∧ getOp (inferShapes f ae op).1 op.opId = getOp f op.opId := by
  have heq := inferShapes_fail_eq f ae op e h
  rw [heq]
  exact ⟨rfl, rfl⟩

theorem failed_op_unchanged_witness :
    (inferShapes unusedFunc noExtents unusedProducer).2
        = some (InferError.emptyShape 40)
    ∧ (inferShapes unusedFunc noExtents unusedProducer).1 = unusedFunc
    ∧ getOp (inferShapes unusedFunc noExtents unusedProducer).1 40
        = getOp unusedFunc 40 :=
  ⟨by decide,
   (failed_op_unchanged unusedFunc noExtents unusedProducer
      (InferError.emptyShape 40) (by decide)).1,
   (failed_op_unchanged unusedFunc noExtents unusedProducer
      (InferError.emptyShape 40) (by decide)).2⟩

theorem extendBounds_seed (owner : Op) (v : Nat) (ae : AccessExtents)
    (hsh : owner.isShaped = true) :
    extendBounds owner v ae [] []
      = Except.ok ((widenedBounds ae owner v).1, (widenedBounds ae owner v).2) := by
  simp [extendBounds, hsh]

theorem extendBounds_merge (owner : Op) (v : Nat) (ae : AccessExtents)
    (lower upper : Index) (hsh : owner.isShaped = true)
    (hne : ¬(lower = [] ∧ upper = []))
    (hl : lower.length = owner.rank) (hu : upper.length = owner.rank) :
    extendBounds owner v ae lower upper
      = Except.ok
          (applyFunElementWise lower (widenedBounds ae owner v).1 (fun p q => min p q),
           applyFunElementWise upper (widenedBounds ae owner v).2 (fun p q => max p q)) := by
  simp [extendBounds, hsh, hne, hl, hu]

theorem extendBounds_rank_error (owner : Op) (v : Nat) (ae : AccessExtents)
    (lower upper : Index) (hsh : owner.isShaped = true)
    (hne : ¬(lower = [] ∧ upper = []))
    (hmm : lower.length ≠ owner.rank ∨ upper.length ≠ owner.rank) :
    extendBounds owner v ae lower upper
      = Except.error (InferError.rankMismatch owner.opId) := by
  rcases hmm with hmm | hmm <;> simp [extendBounds, hsh, hne, hmm]

/-- C4: for two shaped uses of the same value whose widened bound pairs are
(lb1, ub1) and (lb2, ub2), folding both uses accumulates the pair
(componentwise min, componentwise max); when the second use's rank differs
from the accumulated rank, the fold instead raises the fatal rank-mismatch
error located at the second (using) operation. -/
theorem two_use_merge_minmax_or_rank_error
    (ae : AccessExtents) (v : Nat) (o1 o2 : Op) (lb1 ub1 lb2 ub2 : Index)
    (h1 : o1.isShaped = true) (h2 : o2.isShaped = true)
    (hw1 : widenedBounds ae o1 v = (lb1, ub1))
    (hw2 : widenedBounds ae o2 v = (lb2, ub2))
    (hne : ¬(lb1 = [] ∧ ub1 = [])) :
    (lb1.length = o2.rank → ub1.length = o2.rank →
      foldUses ae v [o1, o2] ([], [])
        = Except.ok (applyFunElementWise lb1 lb2 (fun p q => min p q),
                     applyFunElementWise ub1 ub2 (fun p q => max p q)))
    ∧ (lb1.length ≠ o2.rank ∨ ub1.length ≠ o2.rank →
      foldUses ae v [o1, o2] ([], [])
        = Except.error (InferError.rankMismatch o2.opId)) := by
  have hstep1 : extendBounds o1 v ae [] [] = Except.ok (lb1, ub1) := by
    rw [extendBounds_seed o1 v ae h1, hw1]
  constructor
  · intro hl hu
    have hstep2 : extendBounds o2 v ae lb1 ub1
        = Except.ok (applyFunElementWise lb1 lb2 (fun p q => min p q),
                     applyFunElementWise ub1 ub2 (fun p q => max p q)) := by
      rw [extendBounds_merge o2 v ae lb1 ub1 h2 hne hl hu, hw2]
    simp [foldUses, hstep1, hstep2]
  · intro hmm
    have hstep2 : extendBounds o2 v ae lb1 ub1
        = Except.error (InferError.rankMismatch o2.opId) :=
      extendBounds_rank_error o2 v ae lb1 ub1 h2 hne hmm
    simp [foldUses, hstep1, hstep2]

theorem two_use_merge_witness :
    shapedUseA.isShaped = true ∧ shapedUseB.isShaped = true
    ∧ widenedBounds noExtents shapedUseA 1 = ([0], [10])
    ∧ widenedBounds noExtents shapedUseB 1 = ([2], [8])
    ∧ ¬(([0] : Index) = [] ∧ ([10] : Index) = [])
    ∧ (([0] : Index).length = shapedUseB.rank → ([10] : Index).length = shapedUseB.rank →
        foldUses noExtents 1 [shapedUseA, shapedUseB] ([], [])
          = Except.ok (applyFunElementWise [0] [2] (fun p q => min p q),
                       applyFunElementWise [10] [8] (fun p q => max p q)))
    ∧ (([0] : Index).length ≠ shapedUseB.rank ∨ ([10] : Index).length ≠ shapedUseB.rank →
        foldUses noExtents 1 [shapedUseA, shapedUseB] ([], [])
          = Except.error (InferError.rankMismatch shapedUseB.opId)) :=
  ⟨by decide, by decide, by decide, by decide, by decide,
   (two_use_merge_minmax_or_rank_error noExtents 1 shapedUseA shapedUseB
      [0] [10] [2] [8] (by decide) (by decide) (by decide) (by decide) (by decide)).1,
   (two_use_merge_minmax_or_rank_error noExtents 1 shapedUseA shapedUseB
      [0] [10] [2] [8] (by decide) (by decide) (by decide) (by decide) (by decide)).2⟩

theorem inferShapes_ok_eq (f : Func) (ae : AccessExtents) (op : Op)
    (lb ub : Index) (hb : inferBounds f ae op = Except.ok (lb, ub)) :
    inferShapes f ae op
      = (if applyFunElementWise ub lb (fun p q => p - q) = [] then
           (f, some (InferError.emptyShape op.opId))
         else if (applyFunElementWise ub lb (fun p q => p - q)).any
             (fun s => s < 1) then
           (f, some (InferError.nonPositiveShape op.opId))
         else (commit f op lb ub (applyFunElementWise ub lb (fun p q => p - q)),
               none)) := by
  unfold inferShapes
  rw [hb]

/-- C6: after folding all uses into bounds (lb, ub), the pass computes the
shape ub - lb componentwise and fails with an operation-located fatal error
exactly when the shape is empty (no use imposed any bound) or some dimension
is below 1; on success it commits, and success implies every dimension of
ub - lb is at least 1. -/
theorem shape_nondegeneracy (f : Func) (ae : AccessExtents) (op : Op)
    (lb ub shape : Index)
    (hb : inferBounds f ae op = Except.ok (lb, ub))
    (hs : applyFunElementWise ub lb (fun p q => p - q) = shape) :
    (shape = [] → inferShapes f ae op = (f, some (InferError.emptyShape op.opId)))
    ∧ (shape ≠ [] → (∃ s ∈ shape, s < 1) →
        inferShapes f ae op = (f, some (InferError.nonPositiveShape op.opId)))
    ∧ (shape ≠ [] → (∀ s ∈ shape, 1 ≤ s) →
        inferShapes f ae op = (commit f op lb ub shape, none))
    ∧ ((inferShapes f ae op).2 = none → shape ≠ [] ∧ ∀ s ∈ shape, 1 ≤ s) := by
  have heq := inferShapes_ok_eq f ae op lb ub hb
  rw [hs] at heq
  refine ⟨?_, ?_, ?_, ?_⟩
  · intro h0
    rw [heq, if_pos h0]
  · intro h0 hex
    have hany : shape.any (fun s => s < 1) = true := by
      simp only [List.any_eq_true, decide_eq_true_eq]
      exact hex
    rw [heq, if_neg h0, if_pos hany]
  · intro h0 hall
    have hany : ¬shape.any (fun s => s < 1) = true := by
      simp only [List.any_eq_true, decide_eq_true_eq]
      rintro ⟨s, hmem, hlt⟩
      exact absurd hlt (not_lt.mpr (hall s hmem))
    rw [heq, if_neg h0, if_neg hany]
  · intro hnone
    by_cases h0 : shape = []
    · rw [heq, if_pos h0] at hnone
      simp at hnone
    · by_cases hany : shape.any (fun s => s < 1) = true
      · rw [heq, if_neg h0, if_pos hany] at hnone
        simp at hnone
      · refine ⟨h0, ?_⟩
        intro s hmem
        by_contra hlt
        apply hany
        simp only [List.any_eq_true, decide_eq_true_eq]
        exact ⟨s, hmem, not_le.mp hlt⟩

theorem shape_nondegeneracy_witness :
    inferBounds singleUseFunc singleUseExtents producerOp = Except.ok ([-1], [11])
    ∧ applyFunElementWise [11] [-1] (fun p q => p - q) = [12]
    ∧ (([12] : Index) ≠ [] → (∀ s ∈ ([12] : Index), 1 ≤ s) →
        inferShapes singleUseFunc singleUseExtents producerOp
          = (commit singleUseFunc producerOp [-1] [11] [12], none))
    ∧ ((inferShapes singleUseFunc singleUseExtents producerOp).2 = none →
        ([12] : Index) ≠ [] ∧ ∀ s ∈ ([12] : Index), 1 ≤ s) :=
  ⟨by rfl, by decide,
   (shape_nondegeneracy singleUseFunc singleUseExtents producerOp
      [-1] [11] [12] (by rfl) (by decide)).2.2.1,
   (shape_nondegeneracy singleUseFunc singleUseExtents producerOp
      [-1] [11] [12] (by rfl) (by decide)).2.2.2⟩

theorem recordAccess_self (m : Nat → Option Extent) (v : Nat) (off : Index) :
    recordAccess m v off v = stepOff (m v) off := by
  cases h : m v <;> simp [recordAccess, stepOff, h]

theorem recordAccess_other (m : Nat → Option Extent) (v : Nat) (off : Index)
    (u : Nat) (h : u ≠ v) : recordAccess m v off u = m u := by
  simp [recordAccess, h]

theorem accessWalk_eq (a : Op) (v : Nat) :
    ∀ (accs : List AccessRec) (m : Nat → Option Extent),
      (accs.foldl (accessStep a) m) v
        = (accs.filterMap (fun acc =>
            if resolve a acc = some v then some acc.offset else none)).foldl
            stepOff (m v) := by
  intro accs
  induction accs with
  | nil => intro m; simp
  | cons acc rest ih =>
    intro m
    rw [List.foldl_cons, List.filterMap_cons]
    cases hres : resolve a acc with
    | none =>
      have h1 : accessStep a m acc = m := by simp [accessStep, hres]
      rw [ih, h1]
      simp
    | some w =>
      by_cases hw : w = v
      · have h1 : accessStep a m acc = recordAccess m v acc.offset := by
          simp [accessStep, hres, hw]
        rw [ih, h1, recordAccess_self]
        simp [hw, List.foldl_cons]
      · have h1 : accessStep a m acc = recordAccess m w acc.offset := by
          simp [accessStep, hres]
        rw [ih, h1, recordAccess_other m w acc.offset v (fun hvw => hw hvw.symm)]
        simp [hw]

theorem processAccesses_eq (a : Op) (v : Nat) :
    processAccesses a v = (offsetsTo a v).foldl stepOff none := by
  unfold processAccesses offsetsTo
  exact accessWalk_eq a v a.accesses (fun _ => none)

theorem foldl_stepOff_some (l : List Index) :
    ∀ e : Extent, l.foldl stepOff (some e) = some (l.foldl extE e) := by
  induction l with
  | nil => intro e; rfl
  | cons o os ih =>
    intro e
    rw [List.foldl_cons, List.foldl_cons]
    exact ih (extE e o)

theorem processAccesses_none_iff (a : Op) (v : Nat) :
    processAccesses a v = none ↔ offsetsTo a v = [] := by
  rw [processAccesses_eq]
  cases h : offsetsTo a v with
  | nil => simp
  | cons o os =>
    rw [List.foldl_cons]
    have h1 : stepOff none o = some { negative := o, positive := o } := rfl
    rw [h1, foldl_stepOff_some]
    simp

theorem processApply_eq_fold (a : Op) (v : Nat) (hu : a.unroll = none) :
    processApply a v = (offsetsTo a v).foldl stepOff none := by
  unfold processApply
  rw [hu]
  exact processAccesses_eq a v

theorem zipWith_getD (f : Int → Int → Int) :
    ∀ (x y : Index) (d : Nat), d < x.length → d < y.length →
      (List.zipWith f x y).getD d 0 = f (x.getD d 0) (y.getD d 0) := by
  intro x
  induction x with
  | nil =>
    intro y d hx hy
    simp at hx
  | cons p x ih =>
    intro y d hx hy
    cases y with
    | nil => simp at hy
    | cons q y =>
      cases d with
      | zero => rfl
      | succ d =>
        rw [List.zipWith_cons_cons, List.getD_cons_succ, List.getD_cons_succ,
            List.getD_cons_succ]
        exact ih y d (Nat.lt_of_succ_lt_succ hx) (Nat.lt_of_succ_lt_succ hy)

theorem foldl_zip_char (f : Int → Int → Int) (R : Int → Int → Prop)
    (hrefl : ∀ p, R p p) (htrans : ∀ p q s, R p q → R q s → R p s)
    (hfa : ∀ p q, R (f p q) p) (hfb : ∀ p q, R (f p q) q)
    (hsel : ∀ p q, f p q = p ∨ f p q = q) (r : Nat) :
    ∀ (os : List Index) (s : Index), s.length = r → (∀ o ∈ os, o.length = r) →
      (os.foldl (fun x o => applyFunElementWise x o f) s).length = r
      ∧ ∀ d, d < r →
          (R ((os.foldl (fun x o => applyFunElementWise x o f) s).getD d 0)
              (s.getD d 0)
           ∧ (∀ o ∈ os,
               R ((os.foldl (fun x o => applyFunElementWise x o f) s).getD d 0)
                 (o.getD d 0))
           ∧ ((os.foldl (fun x o => applyFunElementWise x o f) s).getD d 0
                 = s.getD d 0
              ∨ ∃ o ∈ os,
                  (os.foldl (fun x o => applyFunElementWise x o f) s).getD d 0
                    = o.getD d 0)) := by
  intro os
  induction os with
  | nil =>
    intro s hs _
    refine ⟨hs, ?_⟩
    intro d _
    refine ⟨hrefl _, ?_, Or.inl rfl⟩
    intro o ho
    exact absurd ho (List.not_mem_nil o)
  | cons o os ih =>
    intro s hs hos
    have hoo : o.length = r := hos o (List.mem_cons_self o os)
    have hos2 : ∀ p ∈ os, p.length = r :=
      fun p hp => hos p (List.mem_cons_of_mem o hp)
    have hs2 : (applyFunElementWise s o f).length = r := by
      simp [applyFunElementWise, List.length_zipWith, hs, hoo]
    obtain ⟨hlen, hch⟩ := ih (applyFunElementWise s o f) hs2 hos2
    rw [List.foldl_cons]
    refine ⟨hlen, ?_⟩
    intro d hd
    obtain ⟨h1, h2, h3⟩ := hch d hd
    have hstep : (applyFunElementWise s o f).getD d 0
        = f (s.getD d 0) (o.getD d 0) := by
      apply zipWith_getD
      · rw [hs]; exact hd
      · rw [hoo]; exact hd
    rw [hstep] at h1 h3
    refine ⟨htrans _ _ _ h1 (hfa _ _), ?_, ?_⟩
    · intro p hp
      rcases List.mem_cons.mp hp with hp | hp
      · rw [hp]
        exact htrans _ _ _ h1 (hfb _ _)
      · exact h2 p hp
    · rcases h3 with h3 | h3
      · rcases hsel (s.getD d 0) (o.getD d 0) with hc | hc
        · exact Or.inl (h3.trans hc)
        · exact Or.inr ⟨o, List.mem_cons_self o os, h3.trans hc⟩
      · obtain ⟨p, hp, hpe⟩ := h3
        exact Or.inr ⟨p, List.mem_cons_of_mem o hp, hpe⟩

theorem foldl_extE_negative : ∀ (os : List Index) (e : Extent),
    (os.foldl extE e).negative
      = os.foldl (fun x o => applyFunElementWise x o (fun p q => min p q))
          e.negative := by
  intro os
  induction os with
  | nil => intro e; rfl
  | cons o os ih =>
    intro e
    rw [List.foldl_cons, List.foldl_cons, ih]
    rfl

theorem foldl_extE_positive : ∀ (os : List Index) (e : Extent),
    (os.foldl extE e).positive
      = os.foldl (fun x o => applyFunElementWise x o (fun p q => max p q))
          e.positive := by
  intro os
  induction os with
  | nil => intro e; rfl
  | cons o os ih =>
    intro e
    rw [List.foldl_cons, List.foldl_cons, ih]
    rfl

theorem processApply_char (a : Op) (v r : Nat)
    (hu : a.unroll = none) (hne : offsetsTo a v ≠ [])
    (hr : ∀ o ∈ offsetsTo a v, o.length = r) :
    ∃ e, processApply a v = some e
      ∧ e.negative.length = r ∧ e.positive.length = r
      ∧ ∀ d, d < r →
          ((∀ o ∈ offsetsTo a v, e.negative.getD d 0 ≤ o.getD d 0)
           ∧ e.negative.getD d 0 ∈ (offsetsTo a v).map (fun o => o.getD d 0)
           ∧ (∀ o ∈ offsetsTo a v, o.getD d 0 ≤ e.positive.getD d 0)
           ∧ e.positive.getD d 0 ∈ (offsetsTo a v).map (fun o => o.getD d 0)) := by
  cases hoffs : offsetsTo a v with
  | nil => exact absurd hoffs hne
  | cons o0 os =>
    have hpe : processApply a v
        = some (os.foldl extE { negative := o0, positive := o0 }) := by
      rw [processApply_eq_fold a v hu, hoffs, List.foldl_cons]
      exact foldl_stepOff_some os { negative := o0, positive := o0 }
    have ho0 : o0.length = r := by
      apply hr
      rw [hoffs]
      exact List.mem_cons_self o0 os
    have hos : ∀ p ∈ os, p.length = r := by
      intro p hp
      apply hr
      rw [hoffs]
      exact List.mem_cons_of_mem o0 hp
    obtain ⟨hminlen, hminch⟩ :=
      foldl_zip_char (fun p q => min p q) (fun p q => p ≤ q)
        (fun p => le_refl p) (fun p q s hx hy => le_trans hx hy)
        (fun p q => min_le_left p q) (fun p q => min_le_right p q)
        (fun p q => min_choice p q) r os o0 ho0 hos
    obtain ⟨hmaxlen, hmaxch⟩ :=
      foldl_zip_char (fun p q => max p q) (fun p q => q ≤ p)
        (fun p => le_refl p) (fun p q s hx hy => le_trans hy hx)
        (fun p q => le_max_left p q) (fun p q => le_max_right p q)
        (fun p q => max_choice p q) r os o0 ho0 hos
    refine ⟨_, hpe, ?_, ?_, ?_⟩
    · rw [foldl_extE_negative]
      exact hminlen
    · rw [foldl_extE_positive]
      exact hmaxlen
    · intro d hd
      obtain ⟨hm1, hm2, hm3⟩ := hminch d hd
      obtain ⟨hx1, hx2, hx3⟩ := hmaxch d hd
      refine ⟨?_, ?_, ?_, ?_⟩
      · intro o ho
        rw [foldl_extE_negative]
        rcases List.mem_cons.mp ho with ho | ho
        · rw [ho]
          exact hm1
        · exact hm2 o ho
      · rw [foldl_extE_negative]
        rcases hm3 with h | h
        · exact List.mem_map.mpr ⟨o0, List.mem_cons_self o0 os, h.symm⟩
        · obtain ⟨p, hp, hpeq⟩ := h
          exact List.mem_map.mpr ⟨p, List.mem_cons_of_mem o0 hp, hpeq.symm⟩
      · intro o ho
        rw [foldl_extE_positive]
        rcases List.mem_cons.mp ho with ho | ho
        · rw [ho]
          exact hx1
        · exact hx2 o ho
      · rw [foldl_extE_positive]
        rcases hx3 with h | h
        · exact List.mem_map.mpr ⟨o0, List.mem_cons_self o0 os, h.symm⟩
        · obtain ⟨p, hp, hpeq⟩ := h
          exact List.mem_map.mpr ⟨p, List.mem_cons_of_mem o0 hp, hpeq.symm⟩

theorem index_ext : ∀ (x y : Index), x.length = y.length →
    (∀ d, d < x.length → x.getD d 0 = y.getD d 0) → x = y := by
  intro x
  induction x with
  | nil =>
    intro y hl _
    cases y with
    | nil => rfl
    | cons q y => simp at hl
  | cons p x ih =>
    intro y hl h
    cases y with
    | nil => simp at hl
    | cons q y =>
      have h0 : p = q := h 0 (by simp)
      have hl2 : x.length = y.length := by simpa using hl
      have hrest : ∀ d, d < x.length → x.getD d 0 = y.getD d 0 := by
        intro d hd
        have hstep := h (d + 1) (by simpa using Nat.succ_lt_succ hd)
        simpa using hstep
      rw [h0, ih y hl2 hrest]

theorem processApply_perm (a : Op) (v r : Nat) (accs2 : List AccessRec)
    (hu : a.unroll = none) (hr : ∀ o ∈ offsetsTo a v, o.length = r)
    (hperm : accs2.Perm a.accesses) :
    processApply { a with accesses := accs2 } v = processApply a v := by
  have hu2 : ({ a with accesses := accs2 } : Op).unroll = none := hu
  have hpermoffs :
      (offsetsTo { a with accesses := accs2 } v).Perm (offsetsTo a v) := by
    unfold offsetsTo
    exact hperm.filterMap _
  cases hoffs : offsetsTo a v with
  | nil =>
    have h2 : offsetsTo { a with accesses := accs2 } v = [] :=
      List.Perm.eq_nil (hoffs ▸ hpermoffs)
    rw [processApply_eq_fold _ v hu2, processApply_eq_fold a v hu, hoffs, h2]
  | cons o0 os =>
    have hne : offsetsTo a v ≠ [] := by
      rw [hoffs]
      simp
    have hne2 : offsetsTo { a with accesses := accs2 } v ≠ [] := by
      intro hnil
      exact hne (List.Perm.eq_nil (hnil ▸ hpermoffs.symm))
    have hr2 : ∀ o ∈ offsetsTo { a with accesses := accs2 } v, o.length = r :=
      fun o ho => hr o (hpermoffs.mem_iff.mp ho)
    obtain ⟨e1, hpe1, hnl1, hpl1, hch1⟩ := processApply_char a v r hu hne hr
    obtain ⟨e2, hpe2, hnl2, hpl2, hch2⟩ :=
      processApply_char { a with accesses := accs2 } v r hu2 hne2 hr2
    rw [hpe1, hpe2]
    have hneg : e2.negative = e1.negative := by
      apply index_ext _ _ (by rw [hnl2, hnl1])
      intro d hd
      rw [hnl2] at hd
      obtain ⟨ha1, ha2, _, _⟩ := hch1 d hd
      obtain ⟨hb1, hb2, _, _⟩ := hch2 d hd
      obtain ⟨o, hom, hoe⟩ := List.mem_map.mp hb2
      obtain ⟨o3, hom3, hoe3⟩ := List.mem_map.mp ha2
      have h1le2 : e1.negative.getD d 0 ≤ e2.negative.getD d 0 := by
        rw [← hoe]
        exact ha1 o (hpermoffs.mem_iff.mp hom)
      have h2le1 : e2.negative.getD d 0 ≤ e1.negative.getD d 0 := by
        rw [← hoe3]
        exact hb1 o3 (hpermoffs.mem_iff.mpr hom3)
      exact le_antisymm h2le1 h1le2
    have hpos : e2.positive = e1.positive := by
      apply index_ext _ _ (by rw [hpl2, hpl1])
      intro d hd
      rw [hpl2] at hd
      obtain ⟨_, _, ha1, ha2⟩ := hch1 d hd
      obtain ⟨_, _, hb1, hb2⟩ := hch2 d hd
      obtain ⟨o, hom, hoe⟩ := List.mem_map.mp hb2
      obtain ⟨o3, hom3, hoe3⟩ := List.mem_map.mp ha2
      have h1le2 : e2.positive.getD d 0 ≤ e1.positive.getD d 0 := by
        rw [← hoe]
        exact ha1 o (hpermoffs.mem_iff.mp hom)
      have h2le1 : e1.positive.getD d 0 ≤ e2.positive.getD d 0 := by
        rw [← hoe3]
        exact hb1 o3 (hpermoffs.mem_iff.mpr hom3)
      exact le_antisymm h1le2 h2le1
    have hee : e2 = e1 := by
      calc e2 = { negative := e2.negative, positive := e2.positive } := rfl
        _ = { negative := e1.negative, positive := e1.positive } := by
              rw [hneg, hpos]
        _ = e1 := rfl
    rw [hee]

/-- C2: for an apply operation without an unroll factor and an operand value
accessed at a nonempty list of offsets of uniform rank, the recorded extent
has, in every dimension, negative equal to the componentwise minimum of the
offsets and positive equal to the componentwise maximum, and the recorded
extent is independent of the order in which the accesses are visited. -/
theorem extent_is_componentwise_minmax (a : Op) (v r d : Nat)
    (accs2 : List AccessRec)
    (hu : a.unroll = none) (hne : offsetsTo a v ≠ [])
    (hr : ∀ o ∈ offsetsTo a v, o.length = r) (hd : d < r)
    (hperm : accs2.Perm a.accesses) :
    ∃ e, processApply a v = some e
      ∧ e.negative.length = r ∧ e.positive.length = r
      ∧ (∀ o ∈ offsetsTo a v, e.negative.getD d 0 ≤ o.getD d 0)
      ∧ e.negative.getD d 0 ∈ (offsetsTo a v).map (fun o => o.getD d 0)
      ∧ (∀ o ∈ offsetsTo a v, o.getD d 0 ≤ e.positive.getD d 0)
      ∧ e.positive.getD d 0 ∈ (offsetsTo a v).map (fun o => o.getD d 0)
      ∧ processApply { a with accesses := accs2 } v = processApply a v := by
  obtain ⟨e, hpe, h1, h2, hch⟩ := processApply_char a v r hu hne hr
  obtain ⟨c1, c2, c3, c4⟩ := hch d hd
  exact ⟨e, hpe, h1, h2, c1, c2, c3, c4,
         processApply_perm a v r accs2 hu hr hperm⟩

theorem extent_is_componentwise_minmax_witness :
    twoAccessApply.unroll = none
    ∧ offsetsTo twoAccessApply 4 ≠ []
    ∧ (∀ o ∈ offsetsTo twoAccessApply 4, o.length = 2)
    ∧ (0 : Nat) < 2
    ∧ ([⟨0, [1, 0]⟩, ⟨0, [-1, 0]⟩] : List AccessRec).Perm twoAccessApply.accesses
    ∧ ∃ e, processApply twoAccessApply 4 = some e
        ∧ e.negative.length = 2 ∧ e.positive.length = 2
        ∧ (∀ o ∈ offsetsTo twoAccessApply 4, e.negative.getD 0 0 ≤ o.getD 0 0)
        ∧ e.negative.getD 0 0
            ∈ (offsetsTo twoAccessApply 4).map (fun o => o.getD 0 0)
        ∧ (∀ o ∈ offsetsTo twoAccessApply 4, o.getD 0 0 ≤ e.positive.getD 0 0)
        ∧ e.positive.getD 0 0
            ∈ (offsetsTo twoAccessApply 4).map (fun o => o.getD 0 0)
        ∧ processApply
            { twoAccessApply with accesses := [⟨0, [1, 0]⟩, ⟨0, [-1, 0]⟩] } 4
            = processApply twoAccessApply 4 :=
  ⟨rfl, by decide, by decide, by decide, by decide,
   extent_is_componentwise_minmax twoAccessApply 4 2 0
     [⟨0, [1, 0]⟩, ⟨0, [-1, 0]⟩] rfl (by decide) (by decide) (by decide)
     (by decide)⟩

theorem adjustUnroll_not_mem (u : Index) :
    ∀ (l : List Nat) (m : Nat → Option Extent) (v : Nat), v ∉ l →
      adjustUnroll m l u v = m v := by
  intro l
  induction l with
  | nil => intro m v _; rfl
  | cons w l ih =>
    intro m v hv
    have hvw : v ≠ w := fun h => hv (h ▸ List.mem_cons_self w l)
    have hvl : v ∉ l := fun h => hv (List.mem_cons_of_mem w h)
    have hcons : adjustUnroll m (w :: l) u = adjustUnroll (unrollStep u m w) l u :=
      rfl
    rw [hcons, ih (unrollStep u m w) v hvl]
    simp [unrollStep, hvw]

theorem adjustUnroll_mem_nodup (u : Index) :
    ∀ (l : List Nat) (m : Nat → Option Extent) (v : Nat), l.Nodup → v ∈ l →
      adjustUnroll m l u v
        = some (unrollPositive u
            ((m v).getD { negative := [], positive := [] })) := by
  intro l
  induction l with
  | nil =>
    intro m v _ hv
    exact absurd hv (List.not_mem_nil v)
  | cons w l ih =>
    intro m v hnd hv
    have hwl : w ∉ l := (List.nodup_cons.mp hnd).1
    have hndl : l.Nodup := (List.nodup_cons.mp hnd).2
    have hcons : adjustUnroll m (w :: l) u = adjustUnroll (unrollStep u m w) l u :=
      rfl
    rw [hcons]
    by_cases hvw : v = w
    · have hvl : v ∉ l := fun h => hwl (hvw ▸ h)
      rw [adjustUnroll_not_mem u l (unrollStep u m w) v hvl]
      simp [unrollStep, hvw]
    · have hvl : v ∈ l := (List.mem_cons.mp hv).resolve_left hvw
      rw [ih (unrollStep u m w) v hndl hvl]
      simp [unrollStep, hvw]

/-- C3 counterexample: the apply with operand list [5, 5] (the same value
twice), one access at offset 3, and unroll factor 2 gets its positive extent
adjusted once per operand position, so twice: the recorded positive extent
is 1 rather than p - u + 1 = 3 - 2 + 1 = 2 as the claim requires. -/
theorem unroll_adjust_duplicate_counterexample :
    processApply dupOperandApply 5 = some { negative := [3], positive := [1] }
    ∧ applyFunElementWise [3] [2] (fun p q => p - q + 1) = [2]
    ∧ processApply dupOperandApply 5
        ≠ some { negative := [3], positive := [2] } :=
  ⟨by decide, by decide, by decide⟩

/-- C3 (amended): when the apply's operand values are pairwise distinct, the
unroll adjustment replaces the positive extent p of an accessed operand by
p - u + 1 componentwise, applied exactly once per operand (and once per
operand position in general: a value occurring as several operands is
adjusted once per occurrence). -/
theorem unroll_adjustment_once_nodup (a : Op) (u : Index) (v : Nat)
    (e : Extent) (hu : a.unroll = some u) (hnd : a.operands.Nodup)
    (hv : v ∈ a.operands) (he : processAccesses a v = some e) :
    processApply a v
      = some { negative := e.negative,
               positive := applyFunElementWise e.positive u
                             (fun p q => p - q + 1) } := by
  unfold processApply
  rw [hu]
  show adjustUnroll (processAccesses a) a.operands u v
      = some { negative := e.negative,
               positive := applyFunElementWise e.positive u
                             (fun p q => p - q + 1) }
  rw [adjustUnroll_mem_nodup u a.operands (processAccesses a) v hnd hv, he]
  rfl

theorem unroll_adjustment_once_witness :
    unrollApply.unroll = some [2]
    ∧ unrollApply.operands.Nodup
    ∧ 5 ∈ unrollApply.operands
    ∧ processAccesses unrollApply 5 = some { negative := [3], positive := [3] }
    ∧ processApply unrollApply 5
        = some { negative := [3],
                 positive := applyFunElementWise [3] [2]
                               (fun p q => p - q + 1) } :=
  ⟨rfl, by decide, by decide, by decide,
   unroll_adjustment_once_nodup unrollApply [2] 5
     { negative := [3], positive := [3] } rfl (by decide) (by decide)
     (by decide)⟩

/-- C7 counterexample: in the function holding one apply (id 7, operand
value 4) with no accesses but an unroll factor, the unroll loop
default-constructs an entry for the operand, so lookupExtent returns a
present (empty) extent although no access was ever recorded. -/
theorem lookup_absent_counterexample :
    noAccessApply.accesses = []
    ∧ lookupExtent (buildExtents noAccessFunc) 7 4
        = some { negative := [], positive := [] } :=
  ⟨rfl, by decide⟩

/-- C7 (amended): for an apply whose terminator declares no unroll factor,
lookupExtent returns absent (not an error) exactly when no access was ever
recorded for the (operation, value) pair — with an unroll factor, every
operand receives an entry even without accesses — and an absent extent acts
as the identity during bound widening: the owner's bounds pass through
unchanged. -/
theorem lookup_absent_iff_no_access (f : Func) (a : Op) (opid v : Nat)
    (ae : AccessExtents) (owner : Op) (w : Nat)
    (hfind : findApply f opid = some a) (hu : a.unroll = none)
    (hsh : owner.isShaped = true)
    (habs : lookupExtent ae owner.opId w = none) :
    (lookupExtent (buildExtents f) opid v = none ↔ offsetsTo a v = [])
    ∧ extendBounds owner w ae [] [] = Except.ok (owner.lb, owner.ub) := by
  constructor
  · have hlk : lookupExtent (buildExtents f) opid v = processApply a v := by
      show (match findApply f opid with
            | some a => processApply a v
            | none => none) = processApply a v
      rw [hfind]
    rw [hlk]
    unfold processApply
    rw [hu]
    exact processAccesses_none_iff a v
  · rw [extendBounds_seed owner w ae hsh]
    have hwb : widenedBounds ae owner w = (owner.lb, owner.ub) := by
      unfold widenedBounds
      rw [habs]
    rw [hwb]

theorem lookup_absent_witness :
    findApply chainF 1 = some opB
    ∧ opB.unroll = none
    ∧ opS.isShaped = true
    ∧ lookupExtent noExtents opS.opId 3 = none
    ∧ (lookupExtent (buildExtents chainF) 1 1 = none ↔ offsetsTo opB 1 = [])
    ∧ extendBounds opS 3 noExtents [] [] = Except.ok (opS.lb, opS.ub) :=
  ⟨by decide, rfl, rfl, rfl,
   (lookup_absent_iff_no_access chainF opB 1 1 noExtents opS 3
      (by decide) rfl rfl rfl).1,
   (lookup_absent_iff_no_access chainF opB 1 1 noExtents opS 3
      (by decide) rfl rfl rfl).2⟩

theorem propagateFold_fields (shape : Index) :
    ∀ (vs : List Nat) (o : Op),
      (vs.foldl (propagateStep shape) o).opId = o.opId
      ∧ (vs.foldl (propagateStep shape) o).lb = o.lb
      ∧ (vs.foldl (propagateStep shape) o).ub = o.ub := by
  intro vs
  induction vs with
  | nil => intro o; exact ⟨rfl, rfl, rfl⟩
  | cons v vs ih =>
    intro o
    rw [List.foldl_cons]
    obtain ⟨h1, h2, h3⟩ := ih (propagateStep shape o v)
    have hp : (propagateStep shape o v).opId = o.opId
        ∧ (propagateStep shape o v).lb = o.lb
        ∧ (propagateStep shape o v).ub = o.ub := by
      unfold propagateStep
      by_cases hc : (o.isShaped && o.operands.contains v) = true
      · simp only [hc, if_true, ite_true]
        exact ⟨rfl, rfl, rfl⟩
      · simp only [hc, if_false, ite_false]
        exact ⟨rfl, rfl, rfl⟩
    exact ⟨h1.trans hp.1, h2.trans hp.2.1, h3.trans hp.2.2⟩

theorem commitOp_opId (p : Op) (lb ub shape : Index) (o : Op) :
    (commitOp p lb ub shape o).opId = o.opId := by
  unfold commitOp
  rw [(propagateFold_fields shape (p.results.map (fun r => r.valueId))
        (if o.opId = p.opId then setShape o lb ub shape else o)).1]
  by_cases hc : o.opId = p.opId
  · simp [hc, setShape]
  · simp [hc]

theorem find?_map_opId (g : Op → Op) (hg : ∀ o, (g o).opId = o.opId) :
    ∀ (l : List Op) (id : Nat),
      (l.map g).find? (fun o => o.opId == id)
        = (l.find? (fun o => o.opId == id)).map g := by
  intro l
  induction l with
  | nil => intro id; rfl
  | cons o l ih =>
    intro id
    rw [List.map_cons]
    by_cases hc : (o.opId == id) = true
    · rw [List.find?_cons_of_pos, List.find?_cons_of_pos]
      · rfl
      · exact hc
      · rw [hg o]
        exact hc
    · rw [List.find?_cons_of_neg, List.find?_cons_of_neg, ih]
      · exact hc
      · rw [hg o]
        exact hc

theorem getOp_commit (f : Func) (p : Op) (lb ub shape : Index) (id : Nat) :
    getOp (commit f p lb ub shape) id
      = (getOp f id).map (commitOp p lb ub shape) := by
  show ((f.ops.map (commitOp p lb ub shape)).find? (fun o => o.opId == id))
      = (f.ops.find? (fun o => o.opId == id)).map (commitOp p lb ub shape)
  exact find?_map_opId (commitOp p lb ub shape) (commitOp_opId p lb ub shape)
    f.ops id

theorem commitOp_self_bounds (p : Op) (lb ub shape : Index) :
    (commitOp p lb ub shape p).lb = lb ∧ (commitOp p lb ub shape p).ub = ub := by
  unfold commitOp
  obtain ⟨_, h2, h3⟩ := propagateFold_fields shape
    (p.results.map (fun r => r.valueId))
    (if p.opId = p.opId then setShape p lb ub shape else p)
  rw [h2, h3]
  simp [setShape]

/-- C5: when an operation has a single result with exactly one bound-owning
use carrying a recorded extent, the accumulated bounds are exactly the use's
current bounds shifted componentwise by the extent, and (when the resulting
shape is valid) the operation's finalized bounds equal that shifted pair. -/
theorem single_use_widening (f : Func) (ae : AccessExtents) (op owner : Op)
    (rv : ResultRec) (e : Extent) (lbW ubW shape : Index)
    (hres : op.results = [rv])
    (huses : usesOf f rv.valueId = [owner])
    (hsh : owner.isShaped = true)
    (hext : lookupExtent ae owner.opId rv.valueId = some e)
    (hlb : applyFunElementWise owner.lb e.negative (fun p q => p + q) = lbW)
    (hub : applyFunElementWise owner.ub e.positive (fun p q => p + q) = ubW)
    (hshape : applyFunElementWise ubW lbW (fun p q => p - q) = shape)
    (hne : shape ≠ []) (hpos : ∀ s ∈ shape, 1 ≤ s)
    (hfind : getOp f op.opId = some op) :
    inferBounds f ae op = Except.ok (lbW, ubW)
    ∧ (getOp (inferShapes f ae op).1 op.opId).map (fun o => (o.lb, o.ub))
        = some (lbW, ubW) := by
  have hwb : widenedBounds ae owner rv.valueId = (lbW, ubW) := by
    unfold widenedBounds
    rw [hext]
    show (applyFunElementWise owner.lb e.negative (fun p q => p + q),
          applyFunElementWise owner.ub e.positive (fun p q => p + q))
        = (lbW, ubW)
    rw [hlb, hub]
  have hstep : extendBounds owner rv.valueId ae [] [] = Except.ok (lbW, ubW) := by
    rw [extendBounds_seed owner rv.valueId ae hsh, hwb]
  have hfold : foldUses ae rv.valueId [owner] ([], []) = Except.ok (lbW, ubW) := by
    simp [foldUses, hstep]
  have hb : inferBounds f ae op = Except.ok (lbW, ubW) := by
    unfold inferBounds
    rw [hres]
    simp [foldResults, huses, hfold]
  have heq := inferShapes_ok_eq f ae op lbW ubW hb
  rw [hshape] at heq
  have hany : ¬shape.any (fun s => s < 1) = true := by
    simp only [List.any_eq_true, decide_eq_true_eq]
    rintro ⟨s, hmem, hlt⟩
    exact absurd hlt (not_lt.mpr (hpos s hmem))
  rw [if_neg hne, if_neg hany] at heq
  refine ⟨hb, ?_⟩
  rw [heq]
  show (getOp (commit f op lbW ubW shape) op.opId).map (fun o => (o.lb, o.ub))
      = some (lbW, ubW)
  rw [getOp_commit, hfind]
  obtain ⟨hl, hu2⟩ := commitOp_self_bounds op lbW ubW shape
  simp [hl, hu2]

theorem single_use_widening_witness :
    producerOp.results = [⟨1, none⟩]
    ∧ usesOf singleUseFunc 1 = [shapedUseA]
    ∧ shapedUseA.isShaped = true
    ∧ lookupExtent singleUseExtents shapedUseA.opId 1
        = some { negative := [-1], positive := [1] }
    ∧ applyFunElementWise shapedUseA.lb [-1] (fun p q => p + q) = [-1]
    ∧ applyFunElementWise shapedUseA.ub [1] (fun p q => p + q) = [11]
    ∧ applyFunElementWise [11] [-1] (fun p q => p - q) = [12]
    ∧ inferBounds singleUseFunc singleUseExtents producerOp
        = Except.ok ([-1], [11])
    ∧ (getOp (inferShapes singleUseFunc singleUseExtents producerOp).1
          producerOp.opId).map (fun o => (o.lb, o.ub))
        = some ([-1], [11]) :=
  ⟨rfl, by decide, rfl, rfl, by decide, by decide, by decide,
   (single_use_widening singleUseFunc singleUseExtents producerOp shapedUseA
      ⟨1, none⟩ { negative := [-1], positive := [1] } [-1] [11] [12]
      rfl (by decide) rfl rfl (by decide) (by decide) (by decide) (by decide)
      (by decide) (by decide)).1,
   (single_use_widening singleUseFunc singleUseExtents producerOp shapedUseA
      ⟨1, none⟩ { negative := [-1], positive := [1] } [-1] [11] [12]
      rfl (by decide) rfl rfl (by decide) (by decide) (by decide) (by decide)
      (by decide) (by decide)).2⟩
